import Mathlib

/-!
# Verification of the powerbox radial-averaging engine (`powerbox/tools.py`)

This file gives a shallow embedding of the binning/averaging engine of
`powerbox/tools.py` and proves properties of it.

Modelling conventions:
* numpy floating-point arrays are modelled as lists of rationals (`List ℚ`),
  so every pipeline definition is executable; the genuinely transcendental
  pieces (logarithmic bin spacing, the n-sphere parametrisation) are modelled
  over `ℝ`.
* `np.digitize` on a monotonically increasing edge vector returns, for a value
  `x`, the number of edges `≤ x`; `digitize` below is exactly that count.
* the SciPy `RegularGridInterpolator` collaborator (an external library, not
  part of this repository) is abstracted as an oracle function passed in as a
  parameter; NaN ("missing") values are modelled with `Option`.
* a zero denominator divides to `0` in `ℚ` where numpy would produce NaN;
  all theorems below about divisions carry the nonzero-denominator
  hypotheses under which the code is specified.
-/

namespace Powerbox

/-- `np.digitize(x, edges)` for a monotonically increasing `edges` vector:
the number of edges that are `≤ x` (`searchsorted` on the right). -/
def digitize (x : ℚ) (edges : List ℚ) : ℕ :=
  (edges.filter fun e => decide (e ≤ x)).length

/-- `indx = np.digitize(coords.flatten(), bins)` in `_get_binweights`. -/
def getIndx (rs : List ℚ) (edges : List ℚ) : List ℕ :=
  rs.map fun r => digitize r edges

/-- The values (from `vals`) of the cells whose bin index (from `idx`) is `j`. -/
def binCells (idx : List ℕ) (vals : List ℚ) (j : ℕ) : List ℚ :=
  ((idx.zip vals).filter fun p => p.1 == j).map Prod.snd

/-- Entry `j` of `np.bincount(idx, weights=vals)`: the sum of the values of
the cells assigned to index `j`. -/
def bincountW (idx : List ℕ) (vals : List ℚ) (j : ℕ) : ℚ :=
  (binCells idx vals j).sum

/-- Entry `j` of the unweighted `np.bincount(idx)`: how many cells have index `j`. -/
def countIdx (idx : List ℕ) (j : ℕ) : ℕ :=
  idx.count j

/-- The `weights` argument of the averaging engine: either a scalar
(broadcast over all cells) or one weight per cell. -/
inductive Weights where
  | scalar (s : ℚ)
  | array (ws : List ℚ)
deriving DecidableEq

/-- `field * weights` (elementwise, with scalar broadcast). -/
def applyW : Weights → List ℚ → List ℚ
  | .scalar s, fs => fs.map fun x => x * s
  | .array ws, fs => List.zipWith (· * ·) fs ws

/-- `weights * coords` (elementwise, with scalar broadcast), used for the
weighted representative bin coordinates. -/
def weightedCoords : Weights → List ℚ → List ℚ
  | .scalar s, rs => rs.map fun r => s * r
  | .array ws, rs => List.zipWith (· * ·) ws rs

/-- The `[1:-1]` slice of a per-index array with `minlength = m + 1`:
entry `k` of the slice is the per-index value at raw index `k + 1`,
for `k < m - 1`. -/
def binSlice (m : ℕ) (f : ℕ → ℚ) : List ℚ :=
  (List.range (m - 1)).map fun k => f (k + 1)

/-- The triple returned by `_get_binweights`. -/
structure BW where
  indx : List ℕ
  binCoords : List ℚ
  sumweights : List ℚ
deriving DecidableEq

/-- `_get_binweights(coords, weights, bins, average, bin_ave)` for an already
resolved, explicitly given edge vector (`_getbins` pass-through path).
`rs` is the flattened radial-coordinate grid. -/
def getBinweights (rs : List ℚ) (w : Weights) (edges : List ℚ)
    (average bin_ave : Bool) : BW :=
  let indx := getIndx rs edges
  let m := edges.length
  if average || bin_ave then
    let sw0 : List ℚ :=
      match w with
      | .scalar _ => binSlice m fun j => (countIdx indx j : ℚ)
      | .array ws => binSlice m fun j => bincountW indx ws j
    let binweight := sw0
    let sumweights := if average then sw0 else List.replicate binweight.length 1
    let binCoords :=
      if bin_ave then
        List.zipWith (fun num den => num / den)
          (binSlice m fun j => bincountW indx (weightedCoords w rs) j) binweight
      else edges
    ⟨indx, binCoords, sumweights⟩
  else
    ⟨indx, edges, List.replicate (m - 1) 1⟩

/-- `_field_average(indx, field, weights, sumweights)` for a real-valued
flattened field: `np.bincount(indx, weights=(field*weights).flatten(),
minlength=len(sumweights)+2)[1:-1] / sumweights`. -/
def fieldAverage (idx : List ℕ) (fs : List ℚ) (w : Weights)
    (sumweights : List ℚ) : List ℚ :=
  let fw := applyW w fs
  List.zipWith (fun k sw => bincountW idx fw (k + 1) / sw)
    (List.range sumweights.length) sumweights

/-- A flattened numpy field: real and imaginary parts plus the dtype kind
flag (`field.dtype.kind == "c"`). -/
structure PBField where
  re : List ℚ
  im : List ℚ
  isComplex : Bool
deriving DecidableEq

/-- `_field_average` on a possibly complex field: the real and imaginary
parts are reduced as two independent real reductions (`rl + 1j * im`);
for a real dtype the imaginary part is `0`. -/
def fieldAverageC (idx : List ℕ) (f : PBField) (w : Weights)
    (sumweights : List ℚ) : List (ℚ × ℚ) :=
  let rl := fieldAverage idx f.re w sumweights
  let im :=
    if f.isComplex then fieldAverage idx f.im w sumweights
    else List.replicate sumweights.length 0
  rl.zip im

/-- `np.concatenate(([0], average, [0]))` in `_field_variance`: the per-bin
averages padded with `0` at raw indices `0` and `m` (out-of-range cells). -/
def padAverage (average : List ℚ) : List ℚ :=
  0 :: (average ++ [0])

/-- The arithmetic body of `_field_variance(indx, field, average, weights, V1)`
(after the complex-dtype check): the reliability-weights variance of the
weighted mean per bin. -/
def fieldVariance (idx : List ℕ) (fs : List ℚ) (average : List ℚ)
    (w : Weights) (V1 : List ℚ) : List ℚ :=
  let avgField := idx.map fun i => (padAverage average).getD i 0
  let V2 : ℕ → ℚ :=
    match w with
    | .array ws => fun k => bincountW idx (ws.map fun x => x ^ 2) (k + 1)
    | .scalar _ => fun k => V1.getD k 0
  let terms := applyW w (List.zipWith (fun f a => (f - a) ^ 2) fs avgField)
  List.zipWith
    (fun k v1 => bincountW idx terms (k + 1) / (v1 - V2 k / v1) * (V2 k / v1 ^ 2))
    (List.range V1.length) V1

/-- Message of the `NotImplementedError` raised by `_field_variance` on a
complex-dtype field. -/
def unsupportedComplexVarianceMsg : String :=
  "Cannot use a complex field when computing variance, yet."

/-- Message of the `NotImplementedError` raised by `angular_average` when the
variance is requested together with interpolation. -/
def varianceInterpMsg : String :=
  "Variance calculation not implemented for interpolation"

/-- Message of the `ValueError` raised for an unsupported interpolation method. -/
def onlyLinearMsg : String :=
  "Only linear interpolation is supported."

/-- Message of the `ValueError` raised when interpolating without a list of
1-D coordinate arrays. -/
def mustSupplyAxesMsg : String :=
  "Must supply a list of len(field.shape) of 1D coordinate arrays for coords when interpolating!"

/-- Message of the `ValueError` raised by `_sample_coords_interpolate` when
every generated sample point lies outside the coordinate box. -/
def noValidSamplesMsg : String :=
  "Generated sample points are outside of the coordinate box provided for the field! Try changing your points generator or field coordinates."

/-- Message of the `ValueError` raised by `angular_average_nd` when `coords`
is not one 1-D array per field dimension. -/
def coordsMismatchMsg : String :=
  "coords should be a list of arrays, one for each dimension."

/-- `_field_variance(indx, field, average, weights, V1)` including the
complex-dtype guard at its top. -/
def fieldVarianceC (idx : List ℕ) (f : PBField) (average : List ℚ)
    (w : Weights) (V1 : List ℚ) : Except String (List ℚ) :=
  if f.isComplex then .error unsupportedComplexVarianceMsg
  else .ok (fieldVariance idx f.re average w V1)

/-- Minimum of a list of rationals (`0` for the empty list; every use below
is on a nonempty list, mirroring numpy which rejects empty reductions). -/
def listMin (l : List ℚ) : ℚ :=
  l.min?.getD 0

/-- Maximum of a list of rationals (`0` for the empty list). -/
def listMax (l : List ℚ) : ℚ :=
  l.max?.getD 0

/-- `coords.min()` over a 2-D radial-coordinate grid, stored row-major as a
list of rows. -/
def gridMin (g : List (List ℚ)) : ℚ :=
  listMin (g.map listMin)

/-- All entries of `np.max(coords, axis=i)` for every axis `i` of a 2-D grid:
the per-column maxima (axis 0) together with the per-row maxima (axis 1). -/
def axisMaxima (g : List (List ℚ)) : List ℚ :=
  g.transpose.map listMax ++ g.map listMax

/-- `max_radius = np.min([np.max(coords, axis=i) for i in range(coords.ndim)])`
in `_getbins` (the heterogeneous fallback computes the same minimum over the
flattened per-axis maxima). -/
def maxRadius (g : List (List ℚ)) : ℚ :=
  listMin (axisMaxima g)

/-- `coords[coords > 0].min()`: the smallest strictly positive entry. -/
def minPos (g : List (List ℚ)) : ℚ :=
  listMin ((g.map fun row => row.filter fun x => decide (0 < x)).flatten)

/-- `np.linspace(lo, hi, c + 1)`. -/
def linspace (lo hi : ℚ) (c : ℕ) : List ℚ :=
  (List.range (c + 1)).map fun i : ℕ => lo + (hi - lo) * (i : ℚ) / (c : ℚ)

/-- The `bins` argument of `_getbins`: either explicit edges or a bin count. -/
inductive BinSpec where
  | edges (es : List ℚ)
  | count (c : ℕ)
deriving DecidableEq

/-- `_getbins(bins, coords, log)` for `log = False` over a 2-D
radial-coordinate grid: explicit edges pass through unchanged, a count `c`
produces `np.linspace(coords.min(), max_radius, c + 1)`. -/
def getbins (bins : BinSpec) (g : List (List ℚ)) : List ℚ :=
  match bins with
  | .edges es => es
  | .count c => linspace (gridMin g) (maxRadius g) c

/-- `np.logspace(lo, hi, c + 1)`: `10` raised to the linearly spaced
exponents. -/
noncomputable def logspace (lo hi : ℝ) (c : ℕ) : List ℝ :=
  (List.range (c + 1)).map fun i : ℕ => (10 : ℝ) ^ (lo + (hi - lo) * (i : ℝ) / (c : ℝ))

/-- `_getbins(bins, coords, log)` for `log = True` with a bin count `c`:
`np.logspace(np.log10(mn), np.log10(max_radius), c + 1)` where `mn` is the
smallest strictly positive radial value. -/
noncomputable def getbinsLog (c : ℕ) (g : List (List ℚ)) : List ℝ :=
  logspace (Real.logb 10 (minPos g : ℝ)) (Real.logb 10 (maxRadius g : ℝ)) c

/-- Arithmetic mean of a list of rationals (`0` for the empty list). -/
def meanQ (l : List ℚ) : ℚ :=
  l.sum / l.length

/-- Reference definition, following the spec's words: the unbiased sample
variance of a list of values (sum of squared deviations from the mean,
divided by `n - 1`). -/
def sampleVariance (l : List ℚ) : ℚ :=
  ((l.map fun x => (x - meanQ l) ^ 2).sum) / ((l.length : ℚ) - 1)

/-- `np.nanmean` over a vector with missing values: the mean of the non-missing
entries, or missing when there are none. -/
def nanmeanOpt (l : List (Option ℚ)) : Option ℚ :=
  let vals := l.filterMap id
  if vals.isEmpty then none else some (vals.sum / (vals.length : ℚ))

/-- `interped_field[r_n == b]`: the interpolated samples whose target radius
is `b` (`vals` is aligned with the radius vector `r_n`). -/
def selectAtRadius (r_n : List ℚ) (vals : List (Option ℚ)) (b : ℚ) : List (Option ℚ) :=
  ((r_n.zip vals).filter fun p => p.1 == b).map Prod.snd

/-- `r_n[~np.isnan(interped_field)]`: the radii of the non-missing samples. -/
def validRadii (r_n : List ℚ) (vals : List (Option ℚ)) : List ℚ :=
  ((r_n.zip vals).filter fun p => p.2.isSome).map Prod.fst

/-- The sorted vector of distinct values of a list (`np.unique`). -/
def uniqueSorted (l : List ℚ) : List ℚ :=
  List.insertionSort (· ≤ ·) l.dedup

/-- Lines 451-453 of `_field_average_interpolate`: the per-radius reduction of
the evaluated samples.  `vals` are the interpolated sample values (missing =
NaN), aligned with the radius vector `r_n`.  Returns
`avged_field = [np.nanmean(vals[r_n == b]) for b in bins]` and
`sumweights = np.unique(r_n[~np.isnan(vals)], return_counts=True)[1]`. -/
def fieldAverageInterpolate (bins r_n : List ℚ) (vals : List (Option ℚ)) :
    List (Option ℚ) × List ℕ :=
  (bins.map fun b => nanmeanOpt (selectAtRadius r_n vals b),
   (uniqueSorted (validRadii r_n vals)).map fun v => (validRadii r_n vals).count v)

/-- The boolean mask of `_sample_coords_interpolate`: a sample point `p` is
kept when, on every axis, it lies between that axis's smallest and largest
coordinate (both inclusive). -/
def inBox (cs : List (List ℚ)) (p : List ℚ) : Bool :=
  (cs.zip p).all fun q => decide (listMin q.1 ≤ q.2) && decide (q.2 ≤ listMax q.1)

/-- Reference predicate, following the spec's words: the point lies inside the
field's per-axis coordinate bounding box. -/
def InBoxP (cs : List (List ℚ)) (p : List ℚ) : Prop :=
  ∀ k, k < cs.length → listMin (cs.getD k []) ≤ p.getD k 0 ∧ p.getD k 0 ≤ listMax (cs.getD k [])

/-- The filtering part of `_sample_coords_interpolate` (lines 403-418): sample
points outside the coordinate bounding box are dropped together with their
radii, and an empty remainder is the fatal "no valid sample points" error.
`pts` are the Cartesian sample points (columns of `sample_coords`), aligned
with `r_n`. -/
def sampleCoordsInterpolate (cs : List (List ℚ)) (pts : List (List ℚ))
    (r_n : List ℚ) : Except String (List (List ℚ) × List ℚ) :=
  let kept := (pts.zip r_n).filter fun q => inBox cs q.1
  if kept.isEmpty then .error noValidSamplesMsg
  else .ok (kept.map Prod.fst, kept.map Prod.snd)

/-- `(bins[1:] + bins[:-1]) / 2`: the midpoints of consecutive bin edges
(the linear-bins case of the interpolation path). -/
def linMidpoints (edges : List ℚ) : List ℚ :=
  List.zipWith (fun a b => (a + b) / 2) edges edges.tail

/-- Lines 432-433 of `_field_average_interpolate`: `field = field * weights`
with every zero-weight cell turned into a missing value (NaN hole), for the
real part of the field. -/
def weightedField (f : PBField) (w : Weights) : List (Option ℚ) :=
  match w with
  | .scalar s => if s = 0 then f.re.map fun _ => none else f.re.map fun x => some (x * s)
  | .array ws => List.zipWith (fun x wi => if wi = 0 then none else some (x * wi)) f.re ws

/-- The averaged values returned by `angular_average`: plain (possibly
complex) numbers on the cell-binning path, values with NaN holes on the
interpolation path. -/
inductive AAVals where
  | binned (vs : List (ℚ × ℚ))
  | interped (vs : List (Option ℚ))
deriving DecidableEq

/-- The tuple returned by `angular_average`; `var` is present exactly when
`get_variance` was requested and `sumweights` exactly when
`return_sumweights` was. -/
structure AAOut where
  res : AAVals
  binCoords : List ℚ
  var : Option (List ℚ)
  sumweights : Option (List ℚ)
deriving DecidableEq

/-- The string tag of the only supported interpolation method. -/
def linearTag : String := "linear"

/-- `angular_average(field, coords, bins, weights, average, bin_ave,
get_variance, log_bins=False, interpolation_method, interp_points_generator,
return_sumweights)`.

Modelling notes:
* `coordsGrid` is the flattened radial-magnitude grid (`coords_grid` in the
  source; taken as an input because Euclidean norms of rational axes are
  irrational in general), and `coordsAxes` is `some` exactly when `coords`
  was supplied as a list of 1-D coordinate arrays;
* `edges` is the explicitly supplied bin-edge vector (the `_getbins`
  pass-through path; the count paths are `getbins` / `getbinsLog` above);
* `sampler` models `interp_points_generator` composed with
  `_spherical2cartesian`: from the bin radii it produces the radius vector
  and the Cartesian sample points (the multi-axis branch of
  `_sample_coords_interpolate`);
* `oracle` models building the rescaled `RegularGridInterpolator` (an
  external SciPy collaborator) over the weighted field and evaluating it at
  the accepted sample points (lines 434-447). -/
def angularAverage (field : PBField) (coordsGrid : List ℚ)
    (coordsAxes : Option (List (List ℚ))) (edges : List ℚ) (w : Weights)
    (average bin_ave getVariance : Bool) (interpMethod : Option String)
    (sampler : List ℚ → List ℚ × List (List ℚ))
    (oracle : List (Option ℚ) → List (List ℚ) → List (Option ℚ))
    (returnSumweights : Bool) : Except String AAOut :=
  if interpMethod ≠ none ∧ interpMethod ≠ some linearTag then .error onlyLinearMsg
  else if coordsAxes = none ∧ interpMethod ≠ none then .error mustSupplyAxesMsg
  else
    match interpMethod with
    | none =>
      let bw := getBinweights coordsGrid w edges average bin_ave
      let res := fieldAverageC bw.indx field w bw.sumweights
      if getVariance then
        match fieldVarianceC bw.indx field (res.map Prod.fst) w bw.sumweights with
        | .error e => .error e
        | .ok v =>
          .ok ⟨.binned res, bw.binCoords, some v,
               if returnSumweights then some bw.sumweights else none⟩
      else
        .ok ⟨.binned res, bw.binCoords, none,
             if returnSumweights then some bw.sumweights else none⟩
    | some _ =>
      let cs := coordsAxes.getD []
      let bins := linMidpoints edges
      let rp := if cs.length = 1 then (bins, bins.map fun b => [b]) else sampler bins
      match sampleCoordsInterpolate cs rp.2 rp.1 with
      | .error e => .error e
      | .ok pr =>
        let interped := oracle (weightedField field w) pr.1
        let out := fieldAverageInterpolate bins pr.2 interped
        if getVariance then .error varianceInterpMsg
        else
          .ok ⟨.interped out.1, bins, none,
               if returnSumweights then some (out.2.map fun k => (k : ℚ)) else none⟩

/-- Column `i` of `field.reshape((n1, n2))`: the cells at flat positions
`k * n2 + i` for `k < n1`. -/
def column (flat : List ℚ) (n1 n2 i : ℕ) : List ℚ :=
  (List.range n1).map fun k => flat.getD (k * n2 + i) 0

/-- The tuple returned by `angular_average_nd` on its general (partial
averaging) path; `res` and `var` hold one entry per column of the untouched
trailing axes. -/
structure NdOut where
  res : List AAVals
  binCoords : List ℚ
  var : Option (List (List ℚ))
  sumweights : Option (List ℚ)
deriving DecidableEq

/-- The dynamic result type of `angular_average_nd`: on the `n = len(coords)`
path it returns exactly what `angular_average` returns. -/
inductive NdResult where
  | single (o : AAOut)
  | multi (o : NdOut)
deriving DecidableEq

/-- `angular_average_nd(field, coords, bins, n, weights, average, bin_ave,
get_variance, log_bins=False, interpolation_method, interp_points_generator,
return_sumweights)`.

`shape` is `field.shape`; `coordsAxes` is the list of per-axis 1-D
coordinate arrays; `coordsGrid` is the flattened radial-magnitude grid over
the first `n` axes (see `angularAverage` for why it is an input); `n = none`
means all axes.  On the general path the field is reshaped to
`(n1, n2)` and reduced per column; errors raised inside the per-column loop
only occur when there is at least one column. -/
def angularAverageNd (field : PBField) (coordsGrid : List ℚ)
    (coordsAxes : List (List ℚ)) (edges : List ℚ) (shape : List ℕ)
    (n : Option ℕ) (w : Weights) (average bin_ave getVariance : Bool)
    (interpMethod : Option String)
    (sampler : List ℚ → List ℚ × List (List ℚ))
    (oracle : List (Option ℚ) → List (List ℚ) → List (Option ℚ))
    (returnSumweights : Bool) : Except String NdResult :=
  let nn := (n.getD coordsAxes.length)
  if coordsAxes.length ≠ shape.length then .error coordsMismatchMsg
  else if interpMethod ≠ none ∧ interpMethod ≠ some linearTag then .error onlyLinearMsg
  else if nn = coordsAxes.length then
    (angularAverage field coordsGrid (some coordsAxes) edges w average bin_ave
      getVariance interpMethod sampler oracle returnSumweights).map NdResult.single
  else
    let n1 := (shape.take nn).prod
    let n2 := (shape.drop nn).prod
    let bw := getBinweights coordsGrid w edges average bin_ave
    match interpMethod with
    | none =>
      let colsRe := (List.range n2).map fun i => column field.re n1 n2 i
      let colsIm := (List.range n2).map fun i => column field.im n1 n2 i
      let resCols := List.zipWith
        (fun cr ci => AAVals.binned
          ((fieldAverage bw.indx cr w bw.sumweights).zip
            (if field.isComplex then fieldAverage bw.indx ci w bw.sumweights
             else List.replicate bw.sumweights.length 0)))
        colsRe colsIm
      if getVariance then
        if field.isComplex ∧ 0 < n2 then .error unsupportedComplexVarianceMsg
        else
          let varCols := colsRe.map fun cr =>
            fieldVariance bw.indx cr (fieldAverage bw.indx cr w bw.sumweights)
              w bw.sumweights
          .ok (.multi ⟨resCols, bw.binCoords, some varCols,
               if returnSumweights then some bw.sumweights else none⟩)
      else
        .ok (.multi ⟨resCols, bw.binCoords, none,
             if returnSumweights then some bw.sumweights else none⟩)
    | some _ =>
      let bins := linMidpoints edges
      let cs := coordsAxes.take nn
      let rp := if cs.length = 1 then (bins, bins.map fun b => [b]) else sampler bins
      if 0 < n2 then
        match sampleCoordsInterpolate cs rp.2 rp.1 with
        | .error e => .error e
        | .ok pr =>
          if getVariance then .error varianceInterpMsg
          else
            let colsRe := (List.range n2).map fun i => column field.re n1 n2 i
            let outs := colsRe.map fun cr =>
              fieldAverageInterpolate bins pr.2
                (oracle (weightedField ⟨cr, [], false⟩ w) pr.1)
            let lastCounts := ((outs.getLast?).map Prod.snd).getD []
            .ok (.multi ⟨outs.map fun o => AAVals.interped o.1, bins, none,
                 if returnSumweights then some (lastCounts.map fun k => (k : ℚ)) else none⟩)
      else
        .ok (.multi ⟨[], bins, none, none⟩)

/-- Line 1124 of `get_power`:
`bins = int(np.prod(N[:res_ndim]) ** (1.0 / res_ndim) / 2.2)` — the bin
count derived from the grid resolution when the caller supplies none.  The
value inside `int(...)` is nonnegative, so Python's truncation toward zero
is the floor. -/
noncomputable def defaultBins (N : List ℕ) (res_ndim : ℕ) : ℕ :=
  ⌊(((N.take res_ndim).prod : ℝ) ^ ((1 : ℝ) / (res_ndim : ℝ)) / 2.2)⌋₊

/-- The bin specification `get_power` hands to the averaging driver: the
caller's bin count when supplied, otherwise `defaultBins`. -/
noncomputable def getPowerBins (bins : Option ℕ) (N : List ℕ) (res_ndim : ℕ) : ℕ :=
  match bins with
  | some b => b
  | none => defaultBins N res_ndim

/-- `np.cumprod` with an accumulator. -/
noncomputable def cumprodAux (acc : ℝ) : List ℝ → List ℝ
  | [] => []
  | x :: xs => (acc * x) :: cumprodAux (acc * x) xs

/-- `np.roll(l, -1)`: rotate a list left by one. -/
def rotateLeft (l : List ℝ) : List ℝ :=
  match l with
  | [] => []
  | x :: xs => xs ++ [x]

/-- The general (`d > 3`) branch of `_spherical2cartesian`: prepend a `2π`
row, take sines with the first entry replaced by `1`, cumulative products,
and the cosines rolled left by one. -/
noncomputable def sph2cartGeneral (r : ℝ) (phis : List ℝ) : List ℝ :=
  let ext := (2 * Real.pi) :: phis
  let sines := 1 :: phis.map Real.sin
  let cumSines := cumprodAux 1 sines
  let cosines := rotateLeft (ext.map Real.cos)
  List.zipWith (fun s c => s * c * r) cumSines cosines

/-- `_spherical2cartesian(r, phi_n)` for a single sample: the closed forms
for one and two angles, the cumulative-product-of-sines construction
otherwise. -/
noncomputable def spherical2cartesian (r : ℝ) (phis : List ℝ) : List ℝ :=
  match phis with
  | [p0] => [r * Real.cos p0, r * Real.sin p0]
  | [p0, p1] => [r * Real.cos p0, r * (Real.sin p0 * Real.cos p1),
                 r * (Real.sin p0 * Real.sin p1)]
  | _ => sph2cartGeneral r phis

/-- Sum of squared coordinates (the squared Euclidean norm). -/
noncomputable def sumSquares (l : List ℝ) : ℝ :=
  (l.map fun x => x ^ 2).sum

/-! ## Helper lemmas -/

theorem sorted_head_le {l : List ℚ} (hs : l.Sorted (· < ·)) (hne : l ≠ []) :
    ∀ a ∈ l, l.head hne ≤ a := by
  cases l with
  | nil => exact absurd rfl hne
  | cons x t =>
    intro a ha
    rcases List.mem_cons.mp ha with h | h
    · simp [h]
    · exact le_of_lt ((List.sorted_cons.mp hs).1 a h)

theorem sorted_le_getLast {l : List ℚ} (hs : l.Sorted (· < ·)) (hne : l ≠ []) :
    ∀ a ∈ l, a ≤ l.getLast hne := by
  induction l with
  | nil => exact absurd rfl hne
  | cons x t ih =>
    intro a ha
    cases t with
    | nil =>
      rcases List.mem_cons.mp ha with h | h
      · simp [h]
      · simp at h
    | cons y u =>
      rw [List.getLast_cons (by simp)]
      rcases List.mem_cons.mp ha with h | h
      · subst h
        exact le_of_lt ((List.sorted_cons.mp hs).1 _ (List.getLast_mem _))
      · exact ih (List.sorted_cons.mp hs).2 (by simp) a h

theorem digitize_eq_zero_of_lt_head {edges : List ℚ} (hs : edges.Sorted (· < ·))
    (hne : edges ≠ []) {r : ℚ} (hr : r < edges.head hne) : digitize r edges = 0 := by
  unfold digitize
  rw [List.length_eq_zero, List.filter_eq_nil_iff]
  intro a ha
  simp only [decide_eq_true_eq]
  exact not_le.mpr (lt_of_lt_of_le hr (sorted_head_le hs hne a ha))

theorem digitize_eq_length_of_getLast_le {edges : List ℚ} (hs : edges.Sorted (· < ·))
    (hne : edges ≠ []) {r : ℚ} (hr : edges.getLast hne ≤ r) :
    digitize r edges = edges.length := by
  unfold digitize
  rw [List.filter_eq_self.mpr]
  intro a ha
  simp only [decide_eq_true_eq]
  exact le_trans (sorted_le_getLast hs hne a ha) hr

theorem getIndx_append (rs : List ℚ) (r : ℚ) (edges : List ℚ) :
    getIndx (rs ++ [r]) edges = getIndx rs edges ++ [digitize r edges] := by
  simp [getIndx]

theorem bincountW_append_single {j i0 : ℕ} (idx : List ℕ) (vals : List ℚ) (v : ℚ)
    (h : idx.length = vals.length) (hij : i0 ≠ j) :
    bincountW (idx ++ [i0]) (vals ++ [v]) j = bincountW idx vals j := by
  unfold bincountW binCells
  rw [List.zip_append h, List.filter_append]
  have : List.filter (fun p => p.1 == j) [(i0, v)] = [] := by
    simp [hij]
  simp [this]

theorem countIdx_append_single {j i0 : ℕ} (idx : List ℕ) (hij : i0 ≠ j) :
    countIdx (idx ++ [i0]) j = countIdx idx j := by
  simp only [countIdx, List.count_append]
  rw [List.count_singleton', if_neg (by simpa using hij)]
  simp

theorem digitize_head_eq_one {edges : List ℚ} (hs : edges.Sorted (· < ·))
    (hne : edges ≠ []) : digitize (edges.head hne) edges = 1 := by
  cases edges with
  | nil => exact absurd rfl hne
  | cons e0 tl =>
    simp only [List.head_cons]
    unfold digitize
    rw [List.filter_cons]
    have htl : tl.filter (fun e => decide (e ≤ e0)) = [] := by
      rw [List.filter_eq_nil_iff]
      intro a ha
      simp only [decide_eq_true_eq]
      exact not_le.mpr ((List.sorted_cons.mp hs).1 a ha)
    simp [htl]

theorem bincountW_append_last {j : ℕ} (idx : List ℕ) (vals : List ℚ) (v : ℚ)
    (h : idx.length = vals.length) :
    bincountW (idx ++ [j]) (vals ++ [v]) j = bincountW idx vals j + v := by
  unfold bincountW binCells
  rw [List.zip_append h, List.filter_append]
  simp

theorem countIdx_append_last (idx : List ℕ) (j : ℕ) :
    countIdx (idx ++ [j]) j = countIdx idx j + 1 := by
  simp [countIdx, List.count_append]

theorem getD_range_map {α : Type} (f : ℕ → α) (d : α) (n k : ℕ) (h : k < n) :
    ((List.range n).map f).getD k d = f k := by
  rw [List.getD_eq_getElem?_getD]
  simp [List.getElem?_map, List.getElem?_range h]

theorem logspace_closed_form {mn mx : ℝ} (hmn : 0 < mn) (hmx : 0 < mx)
    (c i : ℕ) (hi : i ≤ c) :
    (logspace (Real.logb 10 mn) (Real.logb 10 mx) c).getD i 0
      = mn * (mx / mn) ^ ((i : ℝ) / (c : ℝ)) := by
  rw [logspace, getD_range_map _ _ _ _ (by omega)]
  have h10 : (0 : ℝ) < 10 := by norm_num
  rw [show Real.logb 10 mn + (Real.logb 10 mx - Real.logb 10 mn) * (i : ℝ) / (c : ℝ)
      = Real.logb 10 mn + (Real.logb 10 mx - Real.logb 10 mn) * ((i : ℝ) / (c : ℝ)) by
    ring]
  rw [Real.rpow_add h10, Real.rpow_mul (le_of_lt h10), Real.rpow_sub h10,
    Real.rpow_logb h10 (by norm_num) hmn, Real.rpow_logb h10 (by norm_num) hmx]

/-! ## Claim theorems -/

/-- C1: for a strictly increasing edge vector, the edge-inclusion convention
is left-closed, right-open.  Exclusion: a cell whose radial coordinate lies
outside `[edges[0], edges[-1])` (below the first edge, or at or beyond the
last edge — including exactly at the outer edge) contributes to no bin's
field sum, weight sum, cell count or representative-coordinate sum:
appending such a cell leaves every in-range bin's aggregate unchanged.
Inclusion: a cell exactly at the inner edge `edges[0]` receives bin index
`1` — an in-range bin kept by the `[1:-1]` slice whenever there are at
least two edges — and appending it adds its contribution to every
aggregate of bin `1`. -/
theorem claim_C1_out_of_range_excluded :
    (∀ edges : List ℚ, edges.Sorted (· < ·) → ∀ hne : edges ≠ [],
    ∀ r : ℚ, (r < edges.head hne ∨ edges.getLast hne ≤ r) →
    ∀ rs fs ws : List ℚ, rs.length = fs.length → rs.length = ws.length →
    ∀ f w : ℚ, ∀ j : ℕ, 1 ≤ j → j < edges.length →
    bincountW (getIndx (rs ++ [r]) edges) (applyW (.array (ws ++ [w])) (fs ++ [f])) j
        = bincountW (getIndx rs edges) (applyW (.array ws) fs) j
      ∧ bincountW (getIndx (rs ++ [r]) edges) (ws ++ [w]) j
        = bincountW (getIndx rs edges) ws j
      ∧ bincountW (getIndx (rs ++ [r]) edges)
            (weightedCoords (.array (ws ++ [w])) (rs ++ [r])) j
        = bincountW (getIndx rs edges) (weightedCoords (.array ws) rs) j
      ∧ countIdx (getIndx (rs ++ [r]) edges) j = countIdx (getIndx rs edges) j)
    ∧ (∀ edges : List ℚ, edges.Sorted (· < ·) → ∀ hne : edges ≠ [],
    2 ≤ edges.length →
    ∀ rs fs ws : List ℚ, rs.length = fs.length → rs.length = ws.length →
    ∀ f w : ℚ,
    digitize (edges.head hne) edges = 1
      ∧ (1 ≤ 1 ∧ 1 < edges.length)
      ∧ bincountW (getIndx (rs ++ [edges.head hne]) edges)
            (applyW (.array (ws ++ [w])) (fs ++ [f])) 1
        = bincountW (getIndx rs edges) (applyW (.array ws) fs) 1 + f * w
      ∧ bincountW (getIndx (rs ++ [edges.head hne]) edges) (ws ++ [w]) 1
        = bincountW (getIndx rs edges) ws 1 + w
      ∧ bincountW (getIndx (rs ++ [edges.head hne]) edges)
            (weightedCoords (.array (ws ++ [w])) (rs ++ [edges.head hne])) 1
        = bincountW (getIndx rs edges) (weightedCoords (.array ws) rs) 1
            + w * edges.head hne
      ∧ countIdx (getIndx (rs ++ [edges.head hne]) edges) 1
        = countIdx (getIndx rs edges) 1 + 1) := by
  constructor
  · intro edges hs hne r hout rs fs ws hlf hlw f w j hj1 hj2
    have hlen_idx : (getIndx rs edges).length = rs.length := by simp [getIndx]
    have hd : digitize r edges ≠ j := by
      rcases hout with h | h
      · rw [digitize_eq_zero_of_lt_head hs hne h]
        omega
      · rw [digitize_eq_length_of_getLast_le hs hne h]
        omega
    refine ⟨?_, ?_, ?_, ?_⟩
    · have happ : applyW (.array (ws ++ [w])) (fs ++ [f])
          = applyW (.array ws) fs ++ [f * w] := by
        simp only [applyW]
        exact List.zipWith_append _ fs [f] ws [w] (hlf ▸ hlw)
      rw [getIndx_append, happ]
      exact bincountW_append_single _ _ _
        (by simp [getIndx, applyW]; omega) hd
    · rw [getIndx_append]
      exact bincountW_append_single _ _ _ (by simp [getIndx]; omega) hd
    · have happ : weightedCoords (.array (ws ++ [w])) (rs ++ [r])
          = weightedCoords (.array ws) rs ++ [w * r] := by
        simp only [weightedCoords]
        exact List.zipWith_append _ ws [w] rs [r] hlw.symm
      rw [getIndx_append, happ]
      exact bincountW_append_single _ _ _
        (by simp [getIndx, weightedCoords]; omega) hd
    · rw [getIndx_append]
      exact countIdx_append_single _ hd
  · intro edges hs hne hm rs fs ws hlf hlw f w
    have hd1 : digitize (edges.head hne) edges = 1 := digitize_head_eq_one hs hne
    refine ⟨hd1, ⟨le_refl 1, by omega⟩, ?_, ?_, ?_, ?_⟩
    · have happ : applyW (.array (ws ++ [w])) (fs ++ [f])
          = applyW (.array ws) fs ++ [f * w] := by
        simp only [applyW]
        exact List.zipWith_append _ fs [f] ws [w] (hlf ▸ hlw)
      rw [getIndx_append, happ, hd1]
      exact bincountW_append_last _ _ _ (by simp [getIndx, applyW]; omega)
    · rw [getIndx_append, hd1]
      exact bincountW_append_last _ _ _ (by simp [getIndx]; omega)
    · have happ : weightedCoords (.array (ws ++ [w])) (rs ++ [edges.head hne])
          = weightedCoords (.array ws) rs ++ [w * edges.head hne] := by
        simp only [weightedCoords]
        exact List.zipWith_append _ ws [w] rs [edges.head hne] hlw.symm
      rw [getIndx_append, happ, hd1]
      exact bincountW_append_last _ _ _ (by simp [getIndx, weightedCoords]; omega)
    · rw [getIndx_append, hd1]
      exact countIdx_append_last _ _

/-- Witness for C1 at concrete inputs over the edges `[0, 1, 2]`: the cell
at radius `2` sits exactly on the outer edge and contributes to no
aggregate of bin 1, while the cell at radius `0` sits exactly on the inner
edge, is assigned bin index `1`, and adds its field value, weight,
coordinate product and count to bin 1's aggregates. -/
theorem claim_C1_witness :
    ([0, 1, 2] : List ℚ).Sorted (· < ·) ∧
    (bincountW (getIndx ([0] ++ [2]) [0, 1, 2]) (applyW (.array ([1] ++ [5])) ([3] ++ [7])) 1
        = bincountW (getIndx [0] [0, 1, 2]) (applyW (.array [1]) [3]) 1
      ∧ bincountW (getIndx ([0] ++ [2]) [0, 1, 2]) ([1] ++ [5]) 1
        = bincountW (getIndx [0] [0, 1, 2]) [1] 1
      ∧ bincountW (getIndx ([0] ++ [2]) [0, 1, 2])
            (weightedCoords (.array ([1] ++ [5])) ([0] ++ [2])) 1
        = bincountW (getIndx [0] [0, 1, 2]) (weightedCoords (.array [1]) [0]) 1
      ∧ countIdx (getIndx ([0] ++ [2]) [0, 1, 2]) 1 = countIdx (getIndx [0] [0, 1, 2]) 1) ∧
    (digitize 0 [0, 1, 2] = 1
      ∧ (1 ≤ 1 ∧ 1 < ([0, 1, 2] : List ℚ).length)
      ∧ bincountW (getIndx ([3] ++ [0]) [0, 1, 2])
            (applyW (.array ([1] ++ [5])) ([2] ++ [7])) 1
        = bincountW (getIndx [3] [0, 1, 2]) (applyW (.array [1]) [2]) 1 + 7 * 5
      ∧ bincountW (getIndx ([3] ++ [0]) [0, 1, 2]) ([1] ++ [5]) 1
        = bincountW (getIndx [3] [0, 1, 2]) [1] 1 + 5
      ∧ bincountW (getIndx ([3] ++ [0]) [0, 1, 2])
            (weightedCoords (.array ([1] ++ [5])) ([3] ++ [0])) 1
        = bincountW (getIndx [3] [0, 1, 2]) (weightedCoords (.array [1]) [3]) 1 + 5 * 0
      ∧ countIdx (getIndx ([3] ++ [0]) [0, 1, 2]) 1
        = countIdx (getIndx [3] [0, 1, 2]) 1 + 1) :=
  ⟨by decide,
   claim_C1_out_of_range_excluded.1 [0, 1, 2] (by decide) (by decide) 2
     (Or.inr (by decide)) [0] [3] [1] (by decide) (by decide) 7 5 1
     (by decide) (by decide),
   claim_C1_out_of_range_excluded.2 [0, 1, 2] (by decide) (by decide) (by decide)
     [3] [2] [1] (by decide) (by decide) 7 5⟩

/-- C2: the bin-edge resolver passes an explicit edge sequence through
unchanged; given a count `c` it produces `c + 1` edges, linearly spaced
from the grid's minimum radial value to the smallest per-axis maximum in
linear mode, and log-spaced from the minimum strictly positive radial value
to that same upper bound in log mode. -/
theorem claim_C2_binspec_resolver :
    (∀ (es : List ℚ) (g : List (List ℚ)), getbins (.edges es) g = es)
    ∧ (∀ (g : List (List ℚ)) (c : ℕ), 1 ≤ c →
        (getbins (.count c) g).length = c + 1
        ∧ (getbins (.count c) g).getD 0 0 = gridMin g
        ∧ (getbins (.count c) g).getD c 0 = maxRadius g
        ∧ ∀ i, i < c →
            (getbins (.count c) g).getD (i + 1) 0 - (getbins (.count c) g).getD i 0
              = (maxRadius g - gridMin g) / (c : ℚ))
    ∧ (∀ (g : List (List ℚ)) (c : ℕ), 1 ≤ c → 0 < minPos g → 0 < maxRadius g →
        (getbinsLog c g).length = c + 1
        ∧ (∀ i, i ≤ c → (getbinsLog c g).getD i 0
            = (minPos g : ℝ) * ((maxRadius g : ℝ) / (minPos g : ℝ)) ^ ((i : ℝ) / (c : ℝ)))
        ∧ (getbinsLog c g).getD 0 0 = (minPos g : ℝ)
        ∧ (getbinsLog c g).getD c 0 = (maxRadius g : ℝ)) := by
  refine ⟨fun es g => rfl, ?_, ?_⟩
  · intro g c hc
    have hc0 : (c : ℚ) ≠ 0 := Nat.cast_ne_zero.mpr (by omega)
    refine ⟨by simp [getbins, linspace], ?_, ?_, ?_⟩
    · rw [getbins, linspace, getD_range_map _ _ _ _ (by omega)]
      simp
    · rw [getbins, linspace, getD_range_map _ _ _ _ (by omega)]
      field_simp
    · intro i hi
      rw [getbins, linspace, getD_range_map _ _ _ _ (by omega),
        getD_range_map _ _ _ _ (by omega)]
      field_simp
      ring
  · intro g c hc hmn hmx
    have hmn' : (0 : ℝ) < (minPos g : ℝ) := by exact_mod_cast hmn
    have hmx' : (0 : ℝ) < (maxRadius g : ℝ) := by exact_mod_cast hmx
    have hc0 : (c : ℝ) ≠ 0 := Nat.cast_ne_zero.mpr (by omega)
    refine ⟨by simp [getbinsLog, logspace], ?_, ?_, ?_⟩
    · intro i hi
      exact logspace_closed_form hmn' hmx' c i hi
    · rw [getbinsLog, logspace_closed_form hmn' hmx' c 0 (by omega)]
      simp
    · rw [getbinsLog, logspace_closed_form hmn' hmx' c c (le_refl c)]
      rw [div_self hc0, Real.rpow_one]
      field_simp

/-- Witness for C2 at a concrete grid: the 2x2 radial grid
`[[1, 2], [2, 4]]` with minimum `1`, minimum positive value `1` and
inscribed (smallest per-axis maximum) radius `2`, with `c = 2` bins. -/
theorem claim_C2_witness :
    (1 ≤ 2 ∧ 0 < minPos [[1, 2], [2, 4]] ∧ 0 < maxRadius [[1, 2], [2, 4]])
    ∧ ((getbins (.count 2) [[1, 2], [2, 4]]).length = 2 + 1
        ∧ (getbins (.count 2) [[1, 2], [2, 4]]).getD 0 0 = gridMin [[1, 2], [2, 4]]
        ∧ (getbins (.count 2) [[1, 2], [2, 4]]).getD 2 0 = maxRadius [[1, 2], [2, 4]]
        ∧ ∀ i, i < 2 →
            (getbins (.count 2) [[1, 2], [2, 4]]).getD (i + 1) 0
                - (getbins (.count 2) [[1, 2], [2, 4]]).getD i 0
              = (maxRadius [[1, 2], [2, 4]] - gridMin [[1, 2], [2, 4]]) / (2 : ℚ))
    ∧ ((getbinsLog 2 [[1, 2], [2, 4]]).length = 2 + 1
        ∧ (∀ i, i ≤ 2 → (getbinsLog 2 [[1, 2], [2, 4]]).getD i 0
            = (minPos [[1, 2], [2, 4]] : ℝ)
                * ((maxRadius [[1, 2], [2, 4]] : ℝ) / (minPos [[1, 2], [2, 4]] : ℝ))
                  ^ ((i : ℝ) / (2 : ℝ)))
        ∧ (getbinsLog 2 [[1, 2], [2, 4]]).getD 0 0 = (minPos [[1, 2], [2, 4]] : ℝ)
        ∧ (getbinsLog 2 [[1, 2], [2, 4]]).getD 2 0 = (maxRadius [[1, 2], [2, 4]] : ℝ)) :=
  ⟨⟨by decide, by decide, by decide⟩,
   claim_C2_binspec_resolver.2.1 [[1, 2], [2, 4]] 2 (by decide),
   claim_C2_binspec_resolver.2.2 [[1, 2], [2, 4]] 2 (by decide) (by decide) (by decide)⟩

/-- C3 counterexample: with uniform scalar weights and `average = False`, on
the cells `[0, 1, 3]` with edges `[0, 2, 4]`, bin 1 holds two cells and all
three cells are in range, yet `_get_binweights` reports `sumweights = [1, 1]`
(a vector of ones): the reported weight of bin 1 is `1`, not the cell count
`2`, and the reported weights sum to `2`, not to the `3` in-range cells. -/
theorem claim_C3_counterexample :
    (getBinweights [0, 1, 3] (.scalar 1) [0, 2, 4] false true).sumweights = [1, 1]
    ∧ countIdx (getBinweights [0, 1, 3] (.scalar 1) [0, 2, 4] false true).indx 1 = 2
    ∧ (getBinweights [0, 1, 3] (.scalar 1) [0, 2, 4] false true).sumweights.getD 0 0
        ≠ (countIdx (getBinweights [0, 1, 3] (.scalar 1) [0, 2, 4] false true).indx 1 : ℚ)
    ∧ (getBinweights [0, 1, 3] (.scalar 1) [0, 2, 4] false true).sumweights.sum ≠ 3 := by
  refine ⟨?_, ?_, ?_, ?_⟩
  · norm_num [getBinweights, getIndx, digitize, binSlice, countIdx, List.count,
      List.range_succ, List.replicate]
  · decide
  · norm_num [getBinweights, getIndx, digitize, binSlice, countIdx, List.count,
      List.range_succ, List.replicate]
  · norm_num [getBinweights, getIndx, digitize, binSlice, countIdx, List.count,
      List.range_succ, List.replicate]

/-- C3 (amended): with `average = False` the engine reports a weight of `1`
for every bin (a vector of ones of length `len(edges) - 1`), not the per-bin
cell counts; the field reduction divides by those ones, i.e. it is the raw
weighted per-bin sum. -/
theorem claim_C3_amended :
    (∀ (rs edges : List ℚ) (s : ℚ) (bave : Bool),
        (getBinweights rs (.scalar s) edges false bave).sumweights
          = List.replicate (edges.length - 1) 1)
    ∧ (∀ (idx : List ℕ) (fs : List ℚ) (w : Weights) (m : ℕ),
        fieldAverage idx fs w (List.replicate m 1)
          = (List.range m).map fun k => bincountW idx (applyW w fs) (k + 1)) := by
  constructor
  · intro rs edges s bave
    cases bave <;> simp [getBinweights, binSlice]
  · intro idx fs w m
    apply List.ext_getElem
    · simp [fieldAverage]
    · intro i h1 h2
      simp only [fieldAverage, List.getElem_zipWith, List.getElem_map,
        List.getElem_range, List.getElem_replicate, div_one]

end Powerbox

namespace Powerbox

theorem binCells_length {idx : List ℕ} {fs : List ℚ} (j : ℕ)
    (h : idx.length = fs.length) :
    (binCells idx fs j).length = countIdx idx j := by
  induction idx generalizing fs with
  | nil => simp [binCells, countIdx]
  | cons i t ih =>
    cases fs with
    | nil => simp at h
    | cons x xs =>
      have h' : t.length = xs.length := by simpa using h
      by_cases hij : i = j
      · subst hij
        simp [binCells, countIdx, List.filter_cons, List.count_cons] at ih ⊢
        exact ih h'
      · simp [binCells, countIdx, List.filter_cons, List.count_cons, hij] at ih ⊢
        exact ih h'

theorem bincountW_deviation {idx : List ℕ} {fs : List ℚ} (g : ℕ → ℚ) (j : ℕ)
    (h : idx.length = fs.length) :
    bincountW idx (List.zipWith (fun f a => (f - a) ^ 2) fs (idx.map g)) j
      = ((binCells idx fs j).map fun x => (x - g j) ^ 2).sum := by
  induction idx generalizing fs with
  | nil => simp [bincountW, binCells]
  | cons i t ih =>
    cases fs with
    | nil => simp at h
    | cons x xs =>
      have h' : t.length = xs.length := by simpa using h
      by_cases hij : i = j
      · subst hij
        simp only [List.map_cons, List.zipWith_cons_cons, bincountW, binCells,
          List.zip_cons_cons, List.filter_cons] at ih ⊢
        simp only [beq_self_eq_true, if_pos] at ih ⊢
        simp only [List.map_cons, List.sum_cons]
        have := ih h'
        simp only [bincountW, binCells] at this
        rw [this]
      · simp only [List.map_cons, List.zipWith_cons_cons, bincountW, binCells,
          List.zip_cons_cons, List.filter_cons] at ih ⊢
        have hb : ((i, (x - g i) ^ 2).1 == j) = false := by simpa using hij
        have hb2 : ((i, x).1 == j) = false := by simpa using hij
        simp only [hb, hb2, Bool.false_eq_true, if_false] at ih ⊢
        have := ih h'
        simp only [bincountW, binCells] at this
        rw [this]

theorem getD_zipWith_range (f : ℕ → ℚ → ℚ) (l : List ℚ) (k : ℕ)
    (h : k < l.length) :
    (List.zipWith f (List.range l.length) l).getD k 0 = f k (l.getD k 0) := by
  rw [List.getD_eq_getElem?_getD, List.getD_eq_getElem?_getD]
  rw [List.getElem?_zipWith]
  simp [List.getElem?_range h, List.getElem?_eq_getElem h]

theorem applyW_scalar_one (fs : List ℚ) : applyW (.scalar 1) fs = fs := by
  simp [applyW]

theorem padAverage_getD (average : List ℚ) (k : ℕ) (hk : k < average.length) :
    (padAverage average).getD (k + 1) 0 = average.getD k 0 := by
  simp only [padAverage, List.getD_cons_succ]
  rw [List.getD_eq_getElem?_getD, List.getD_eq_getElem?_getD,
    List.getElem?_append_left hk]

theorem getBinweights_sumweights_scalar (rs edges : List ℚ) (s : ℚ) (bave : Bool) :
    (getBinweights rs (.scalar s) edges true bave).sumweights
      = binSlice edges.length fun j => (countIdx (getIndx rs edges) j : ℚ) := by
  simp [getBinweights]

/-- C4: with the uniform default weight `1`, for every bin holding at least
two cells the variance estimator returns exactly that bin's unbiased sample
variance divided by its cell count `n` (the variance of the mean). -/
theorem claim_C4_variance_of_mean :
    ∀ (rs fs edges : List ℚ) (k : ℕ),
    rs.length = fs.length →
    k + 1 < edges.length →
    2 ≤ countIdx (getIndx rs edges) (k + 1) →
    (fieldVariance (getIndx rs edges) fs
        (fieldAverage (getIndx rs edges) fs (.scalar 1)
          (getBinweights rs (.scalar 1) edges true true).sumweights)
        (.scalar 1)
        (getBinweights rs (.scalar 1) edges true true).sumweights).getD k 0
      = sampleVariance (binCells (getIndx rs edges) fs (k + 1))
          / (countIdx (getIndx rs edges) (k + 1) : ℚ) := by
  intro rs fs edges k hlen hk hcount
  have hleni : (getIndx rs edges).length = fs.length := by simp [getIndx, hlen]
  rw [getBinweights_sumweights_scalar]
  set idx := getIndx rs edges with hidx
  set m := edges.length with hm
  set sw := binSlice m (fun j => (countIdx idx j : ℚ)) with hswdef
  set n : ℚ := (countIdx idx (k + 1) : ℚ) with hn
  have hn2 : (2 : ℚ) ≤ n := by
    rw [hn]
    exact_mod_cast hcount
  have hn0 : n ≠ 0 := by linarith
  have hn1 : n - 1 ≠ 0 := by
    intro h
    have : n = 1 := by linarith
    linarith
  have hswlen : sw.length = m - 1 := by simp [hswdef, binSlice]
  have hkm : k < m - 1 := by omega
  have hswk : sw.getD k 0 = n := by
    rw [hswdef, binSlice, getD_range_map _ _ _ _ hkm]
  set avg := fieldAverage idx fs (.scalar 1) sw with havgdef
  have havglen : avg.length = m - 1 := by
    simp [havgdef, fieldAverage, hswlen]
  have havgk : avg.getD k 0 = bincountW idx fs (k + 1) / n := by
    rw [havgdef]
    show (List.zipWith (fun j s => bincountW idx (applyW (.scalar 1) fs) (j + 1) / s)
      (List.range sw.length) sw).getD k 0 = _
    rw [getD_zipWith_range _ sw k (by omega), applyW_scalar_one, hswk]
  have hterms : applyW (.scalar 1)
      (List.zipWith (fun f a => (f - a) ^ 2) fs
        (idx.map fun i => (padAverage avg).getD i 0))
      = List.zipWith (fun f a => (f - a) ^ 2) fs
        (idx.map fun i => (padAverage avg).getD i 0) := applyW_scalar_one _
  have hvar : (fieldVariance idx fs avg (.scalar 1) sw).getD k 0
      = bincountW idx
          (List.zipWith (fun f a => (f - a) ^ 2) fs
            (idx.map fun i => (padAverage avg).getD i 0)) (k + 1)
          / (n - n / n) * (n / n ^ 2) := by
    show (List.zipWith
      (fun j v1 => bincountW idx
          (applyW (.scalar 1)
            (List.zipWith (fun f a => (f - a) ^ 2) fs
              (idx.map fun i => (padAverage avg).getD i 0))) (j + 1)
          / (v1 - sw.getD j 0 / v1) * (sw.getD j 0 / v1 ^ 2))
      (List.range sw.length) sw).getD k 0 = _
    rw [getD_zipWith_range _ sw k (by omega), hterms, hswk]
  rw [hvar, bincountW_deviation _ _ hleni]
  have hg : (padAverage avg).getD (k + 1) 0 = bincountW idx fs (k + 1) / n := by
    rw [padAverage_getD avg k (by omega), havgk]
  rw [hg]
  have hcells_sum : (binCells idx fs (k + 1)).sum = bincountW idx fs (k + 1) := rfl
  have hcells_len : ((binCells idx fs (k + 1)).length : ℚ) = n := by
    rw [binCells_length _ hleni]
  rw [sampleVariance]
  rw [show meanQ (binCells idx fs (k + 1)) = bincountW idx fs (k + 1) / n by
    rw [meanQ, hcells_sum, hcells_len]]
  rw [hcells_len]
  rw [div_self hn0]
  field_simp
  ring

/-- Witness for C4 at a concrete input: cells at radii `[0, 1, 5]` with
edges `[0, 4, 8]` put the field values `1` and `3` into bin 1 (`n = 2`);
the estimator returns their sample variance `2` divided by `2`. -/
theorem claim_C4_witness :
    (([0, 1, 5] : List ℚ).length = ([1, 3, 6] : List ℚ).length
      ∧ 0 + 1 < ([0, 4, 8] : List ℚ).length
      ∧ 2 ≤ countIdx (getIndx [0, 1, 5] [0, 4, 8]) (0 + 1))
    ∧ (fieldVariance (getIndx [0, 1, 5] [0, 4, 8]) [1, 3, 6]
        (fieldAverage (getIndx [0, 1, 5] [0, 4, 8]) [1, 3, 6] (.scalar 1)
          (getBinweights [0, 1, 5] (.scalar 1) [0, 4, 8] true true).sumweights)
        (.scalar 1)
        (getBinweights [0, 1, 5] (.scalar 1) [0, 4, 8] true true).sumweights).getD 0 0
      = sampleVariance (binCells (getIndx [0, 1, 5] [0, 4, 8]) [1, 3, 6] (0 + 1))
          / (countIdx (getIndx [0, 1, 5] [0, 4, 8]) (0 + 1) : ℚ) :=
  ⟨⟨by decide, by decide, by decide⟩,
   claim_C4_variance_of_mean [0, 1, 5] [1, 3, 6] [0, 4, 8] 0
     (by decide) (by decide) (by decide)⟩

theorem sampleCoords_cases (cs : List (List ℚ)) (pts : List (List ℚ))
    (r_n : List ℚ) :
    sampleCoordsInterpolate cs pts r_n = .error noValidSamplesMsg
      ∨ ∃ pr, sampleCoordsInterpolate cs pts r_n = .ok pr := by
  unfold sampleCoordsInterpolate
  by_cases hk : (List.filter (fun q => inBox cs q.1) (pts.zip r_n)).isEmpty
  · left
    simp [hk]
  · right
    refine ⟨(List.map Prod.fst (List.filter (fun q => inBox cs q.1) (pts.zip r_n)),
             List.map Prod.snd (List.filter (fun q => inBox cs q.1) (pts.zip r_n))), ?_⟩
    simp [hk]

/-- C5: requesting the variance fails with the unsupported-operation error
and returns no result, both (1) on a complex-dtype field (the
`_field_variance` complex guard) and (2) together with interpolation mode;
in the latter case the call always ends in an error — the unsupported
variance-with-interpolation error whenever the sample filtering succeeds,
otherwise the missing-axes or no-valid-samples configuration error. -/
theorem claim_C5_variance_errors :
    ∀ (field : PBField) (coordsGrid : List ℚ)
      (coordsAxes : Option (List (List ℚ))) (edges : List ℚ) (w : Weights)
      (average bin_ave : Bool)
      (sampler : List ℚ → List ℚ × List (List ℚ))
      (oracle : List (Option ℚ) → List (List ℚ) → List (Option ℚ))
      (returnSumweights : Bool),
    (field.isComplex = true →
      angularAverage field coordsGrid coordsAxes edges w average bin_ave true
          none sampler oracle returnSumweights
        = .error unsupportedComplexVarianceMsg)
    ∧ (angularAverage field coordsGrid coordsAxes edges w average bin_ave true
          (some linearTag) sampler oracle returnSumweights
            = .error varianceInterpMsg
        ∨ angularAverage field coordsGrid coordsAxes edges w average bin_ave true
          (some linearTag) sampler oracle returnSumweights
            = .error noValidSamplesMsg
        ∨ angularAverage field coordsGrid coordsAxes edges w average bin_ave true
          (some linearTag) sampler oracle returnSumweights
            = .error mustSupplyAxesMsg)
    ∧ (∀ cs, coordsAxes = some cs →
        ∀ pr, sampleCoordsInterpolate cs
            (if cs.length = 1 then
              (linMidpoints edges, (linMidpoints edges).map fun b => [b])
             else sampler (linMidpoints edges)).2
            (if cs.length = 1 then
              (linMidpoints edges, (linMidpoints edges).map fun b => [b])
             else sampler (linMidpoints edges)).1 = .ok pr →
        angularAverage field coordsGrid coordsAxes edges w average bin_ave true
            (some linearTag) sampler oracle returnSumweights
          = .error varianceInterpMsg) := by
  intro field coordsGrid coordsAxes edges w average bin_ave sampler oracle rsw
  refine ⟨?_, ?_, ?_⟩
  · intro hc
    simp only [angularAverage, fieldVarianceC, hc, if_true]
    norm_num
  · cases coordsAxes with
    | none =>
      right; right
      simp [angularAverage, linearTag]
    | some cs =>
      rcases sampleCoords_cases cs
          (if cs.length = 1 then
            (linMidpoints edges, (linMidpoints edges).map fun b => [b])
           else sampler (linMidpoints edges)).2
          (if cs.length = 1 then
            (linMidpoints edges, (linMidpoints edges).map fun b => [b])
           else sampler (linMidpoints edges)).1 with h | ⟨pr, h⟩
      · right; left
        simp only [angularAverage]
        norm_num
        rw [h]
        simp
      · left
        simp only [angularAverage]
        norm_num
        rw [h]
        simp
  · intro cs hcs pr h
    subst hcs
    simp only [angularAverage]
    norm_num
    rw [h]
    simp

/-- Witness for C5 at concrete inputs: a complex-dtype field with variance
requested yields the complex-variance error, and a real field with variance
requested in interpolation mode (with a sampler whose single sample survives
the box filter) yields the variance-with-interpolation error. -/
theorem claim_C5_witness :
    (PBField.isComplex ⟨[1], [1], true⟩ = true
      ∧ angularAverage ⟨[1], [1], true⟩ [0] none [0, 2] (.scalar 1) true true true
          none (fun _ => ([], [])) (fun _ _ => []) false
        = .error unsupportedComplexVarianceMsg)
    ∧ (sampleCoordsInterpolate [[0, 2], [0, 2]]
        (if ([[0, 2], [0, 2]] : List (List ℚ)).length = 1 then
          (linMidpoints [0, 2], (linMidpoints [0, 2]).map fun b => [b])
         else (fun _ : List ℚ => (([1], [[1, 1]]) : List ℚ × List (List ℚ)))
            (linMidpoints [0, 2])).2
        (if ([[0, 2], [0, 2]] : List (List ℚ)).length = 1 then
          (linMidpoints [0, 2], (linMidpoints [0, 2]).map fun b => [b])
         else (fun _ : List ℚ => (([1], [[1, 1]]) : List ℚ × List (List ℚ)))
            (linMidpoints [0, 2])).1 = .ok ([[1, 1]], [1])
      ∧ angularAverage ⟨[1], [0], false⟩ [0] (some [[0, 2], [0, 2]]) [0, 2]
          (.scalar 1) true true true (some linearTag)
          (fun _ => ([1], [[1, 1]])) (fun _ _ => []) false
        = .error varianceInterpMsg) :=
  ⟨⟨rfl,
    (claim_C5_variance_errors ⟨[1], [1], true⟩ [0] none [0, 2] (.scalar 1) true true
      (fun _ => ([], [])) (fun _ _ => []) false).1 rfl⟩,
   rfl,
   (claim_C5_variance_errors ⟨[1], [0], false⟩ [0] (some [[0, 2], [0, 2]]) [0, 2]
      (.scalar 1) true true (fun _ => ([1], [[1, 1]])) (fun _ _ => []) false).2.2
      [[0, 2], [0, 2]] rfl ([[1, 1]], [1]) rfl⟩

/-- C6: when the number of axes to average equals the field's full
dimensionality (also when it is left unspecified), the partial-averaging
entry point returns exactly the output of the single-shot entry point on
the same field, bins, weights and flags. -/
theorem claim_C6_full_dimensional_delegation :
    ∀ (field : PBField) (coordsGrid : List ℚ) (coordsAxes : List (List ℚ))
      (edges : List ℚ) (shape : List ℕ) (n : Option ℕ) (w : Weights)
      (average bin_ave getVariance : Bool) (interpMethod : Option String)
      (sampler : List ℚ → List ℚ × List (List ℚ))
      (oracle : List (Option ℚ) → List (List ℚ) → List (Option ℚ))
      (returnSumweights : Bool),
    coordsAxes.length = shape.length →
    n.getD coordsAxes.length = coordsAxes.length →
    angularAverageNd field coordsGrid coordsAxes edges shape n w average
        bin_ave getVariance interpMethod sampler oracle returnSumweights
      = (angularAverage field coordsGrid (some coordsAxes) edges w average
          bin_ave getVariance interpMethod sampler oracle
          returnSumweights).map NdResult.single := by
  intro field coordsGrid coordsAxes edges shape n w average bin_ave
    getVariance interpMethod sampler oracle returnSumweights hshape hn
  simp only [angularAverageNd]
  rw [if_neg (by simp [hshape])]
  by_cases him : interpMethod ≠ none ∧ interpMethod ≠ some linearTag
  · rw [if_pos him]
    simp only [angularAverage]
    rw [if_pos him]
    rfl
  · rw [if_neg him, if_pos hn]

/-- Witness for C6 at a concrete input: a 1-D two-cell field with all axes
averaged (`n = none`) returns exactly the single-shot output. -/
theorem claim_C6_witness :
    (([[0, 1]] : List (List ℚ)).length = ([2] : List ℕ).length
      ∧ (none : Option ℕ).getD ([[0, 1]] : List (List ℚ)).length
          = ([[0, 1]] : List (List ℚ)).length)
    ∧ angularAverageNd ⟨[1, 2], [0, 0], false⟩ [0, 1] [[0, 1]] [0, 2] [2] none
        (.scalar 1) true true false none (fun _ => ([], [])) (fun _ _ => []) false
      = (angularAverage ⟨[1, 2], [0, 0], false⟩ [0, 1] (some [[0, 1]]) [0, 2]
          (.scalar 1) true true false none (fun _ => ([], []))
          (fun _ _ => []) false).map NdResult.single :=
  ⟨⟨by decide, by decide⟩,
   claim_C6_full_dimensional_delegation ⟨[1, 2], [0, 0], false⟩ [0, 1] [[0, 1]]
     [0, 2] [2] none (.scalar 1) true true false none (fun _ => ([], []))
     (fun _ _ => []) false (by decide) (by decide)⟩

/-- C7 counterexample: for a 1-D grid of `8` cells with all axes averaged
and no caller-supplied bin count, `get_power` uses
`int(8 ** (1/1) / 2.2) = 3` bins, whereas rounding to the nearest integer
as the claim states would give `round(8 / 2.2) = 4`. -/
theorem claim_C7_counterexample :
    getPowerBins none [8] 1 = 3
    ∧ (round (((([8] : List ℕ).take 1).prod : ℝ) ^ ((1 : ℝ) / ((1 : ℕ) : ℝ)) / 2.2)).toNat = 4
    ∧ getPowerBins none [8] 1
        ≠ (round (((([8] : List ℕ).take 1).prod : ℝ) ^ ((1 : ℝ) / ((1 : ℕ) : ℝ)) / 2.2)).toNat := by
  have hv : ((([8] : List ℕ).take 1).prod : ℝ) ^ ((1 : ℝ) / ((1 : ℕ) : ℝ)) / 2.2
      = 8 / 2.2 := by
    norm_num
  have h3 : getPowerBins none [8] 1 = 3 := by
    show defaultBins [8] 1 = 3
    rw [defaultBins]
    rw [show ((([8] : List ℕ).take 1).prod : ℝ) ^ ((1 : ℝ) / ((1 : ℕ) : ℝ)) / 2.2
        = 8 / 2.2 from hv]
    rw [Nat.floor_eq_iff (by norm_num)]
    norm_num
  have h4 : (round (((([8] : List ℕ).take 1).prod : ℝ)
      ^ ((1 : ℝ) / ((1 : ℕ) : ℝ)) / 2.2)).toNat = 4 := by
    rw [hv, round_eq]
    rw [show (8 : ℝ) / 2.2 + 1 / 2 = 91 / 22 by norm_num]
    have : ⌊(91 : ℝ) / 22⌋ = 4 := by
      rw [Int.floor_eq_iff]
      norm_num
    rw [this]
    decide
  exact ⟨h3, h4, by rw [h3, h4]; decide⟩

/-- C7 (amended): when no bin count is supplied the orchestrator uses
`int((∏ N_averaged) ** (1/res_ndim) / 2.2)` — the integer truncation
(floor, as the value is nonnegative), i.e. the unique natural `k` with
`k ≤ v < k + 1` — not the rounding to the nearest integer; a supplied count
is used as is. -/
theorem claim_C7_amended :
    ∀ (N : List ℕ) (r b : ℕ),
    getPowerBins (some b) N r = b
    ∧ (getPowerBins none N r : ℝ)
        ≤ ((N.take r).prod : ℝ) ^ ((1 : ℝ) / (r : ℝ)) / 2.2
    ∧ ((N.take r).prod : ℝ) ^ ((1 : ℝ) / (r : ℝ)) / 2.2
        < getPowerBins none N r + 1 := by
  intro N r b
  have h0 : (0 : ℝ) ≤ ((N.take r).prod : ℝ) ^ ((1 : ℝ) / (r : ℝ)) / 2.2 :=
    div_nonneg (Real.rpow_nonneg (Nat.cast_nonneg _) _) (by norm_num)
  refine ⟨rfl, ?_, ?_⟩
  · exact Nat.floor_le h0
  · exact Nat.lt_floor_add_one
      (((N.take r).prod : ℝ) ^ ((1 : ℝ) / (r : ℝ)) / 2.2)

theorem getD_map_of_lt {α β : Type} (f : α → β) (l : List α) (i : ℕ)
    (d : α) (d' : β) (h : i < l.length) :
    (l.map f).getD i d' = f (l.getD i d) := by
  rw [List.getD_eq_getElem?_getD, List.getD_eq_getElem?_getD]
  simp [List.getElem?_map, List.getElem?_eq_getElem h]

theorem uniqueSorted_eq_of_covering {valid bins : List ℚ}
    (hsort : bins.Sorted (· < ·))
    (hsub : ∀ x ∈ valid, x ∈ bins)
    (hcov : ∀ b ∈ bins, 0 < valid.count b) :
    uniqueSorted valid = bins := by
  have hperm : List.Perm (uniqueSorted valid) valid.dedup :=
    List.perm_insertionSort _ _
  have hnodup : (uniqueSorted valid).Nodup :=
    hperm.nodup_iff.mpr (List.nodup_dedup valid)
  have hsorted : (uniqueSorted valid).Sorted (· ≤ ·) :=
    List.sorted_insertionSort _ _
  have hbnodup : bins.Nodup := hsort.nodup
  have hbsorted : bins.Sorted (· ≤ ·) := hsort.le_of_lt
  have hmem : ∀ a : ℚ, a ∈ uniqueSorted valid ↔ a ∈ bins := by
    intro a
    rw [hperm.mem_iff, List.mem_dedup]
    constructor
    · exact fun h => hsub a h
    · intro h
      exact List.count_pos_iff.mp (hcov a h)
  exact List.eq_of_perm_of_sorted
    ((List.perm_ext_iff_of_nodup hnodup hbnodup).mpr hmem) hsorted hbsorted

/-- C8 counterexample: with target radii (bins) `[1, 2]` and one sample per
radius, of which the sample at radius `2` is missing, the value list has one
entry per radius but the reported weight list has a single entry: the radius
whose samples are all missing gets no weight entry, so the per-bin
quantities do not all have one entry per target radius. -/
theorem claim_C8_counterexample :
    (fieldAverageInterpolate [1, 2] [1, 2] [some 5, none]).1.length = 2
    ∧ (fieldAverageInterpolate [1, 2] [1, 2] [some 5, none]).2.length = 1
    ∧ (fieldAverageInterpolate [1, 2] [1, 2] [some 5, none]).2.length
        ≠ ([1, 2] : List ℚ).length := by
  refine ⟨by decide, by decide, by decide⟩

/-- C8 (amended): the bin-value list has one entry per target radius — the
`nanmean` of the samples at that radius, a missing value when they are all
missing — but the weight list has one entry only per *distinct radius with
at least one non-missing sample* (its count of non-missing samples); radii
whose samples are all missing are omitted from the weights.  When every
target radius has a surviving sample (and the surviving radii are the
target radii), the weights are exactly the per-radius counts. -/
theorem claim_C8_amended :
    ∀ (bins r_n : List ℚ) (vals : List (Option ℚ)),
    ((fieldAverageInterpolate bins r_n vals).1.length = bins.length
      ∧ ∀ i, i < bins.length →
          (fieldAverageInterpolate bins r_n vals).1.getD i none
            = nanmeanOpt (selectAtRadius r_n vals (bins.getD i 0)))
    ∧ (fieldAverageInterpolate bins r_n vals).2.length
        = (validRadii r_n vals).dedup.length
    ∧ (bins.Sorted (· < ·) →
        (∀ x ∈ validRadii r_n vals, x ∈ bins) →
        (∀ b ∈ bins, 0 < (validRadii r_n vals).count b) →
        (fieldAverageInterpolate bins r_n vals).2
          = bins.map fun b => (validRadii r_n vals).count b) := by
  intro bins r_n vals
  refine ⟨⟨by simp [fieldAverageInterpolate], ?_⟩, ?_, ?_⟩
  · intro i hi
    exact getD_map_of_lt _ bins i 0 none hi
  · simp only [fieldAverageInterpolate, List.length_map]
    exact (List.perm_insertionSort _ _).length_eq
  · intro hsort hsub hcov
    simp only [fieldAverageInterpolate]
    rw [uniqueSorted_eq_of_covering hsort hsub hcov]

/-- Witness for C8 (amended) at a concrete input: radii `[1, 1, 2]` with one
missing sample at radius `1`; both target radii keep a surviving sample, so
the weights are the per-radius counts `[1, 1]`. -/
theorem claim_C8_witness :
    (([1, 2] : List ℚ).Sorted (· < ·)
      ∧ (∀ x ∈ validRadii [1, 1, 2] [some 3, none, some 4], x ∈ ([1, 2] : List ℚ))
      ∧ (∀ b ∈ ([1, 2] : List ℚ),
          0 < (validRadii [1, 1, 2] [some 3, none, some 4]).count b))
    ∧ (fieldAverageInterpolate [1, 2] [1, 1, 2] [some 3, none, some 4]).2
        = ([1, 2] : List ℚ).map fun b =>
            (validRadii [1, 1, 2] [some 3, none, some 4]).count b :=
  ⟨⟨by decide, by decide, by decide⟩,
   (claim_C8_amended [1, 2] [1, 1, 2] [some 3, none, some 4]).2.2
     (by decide) (by decide) (by decide)⟩

theorem inBox_iff_InBoxP (cs : List (List ℚ)) (p : List ℚ)
    (hp : p.length = cs.length) :
    inBox cs p = true ↔ InBoxP cs p := by
  unfold inBox InBoxP
  rw [List.all_eq_true]
  constructor
  · intro h k hk
    have hk2 : k < (cs.zip p).length := by
      rw [List.length_zip]
      omega
    have hmem := h ((cs.zip p).get ⟨k, hk2⟩) (List.get_mem _ _ hk2)
    rw [List.get_eq_getElem, List.getElem_zip] at hmem
    simp only [Bool.and_eq_true, decide_eq_true_eq] at hmem
    rw [List.getD_eq_getElem _ _ (by omega), List.getD_eq_getElem _ _ (by omega)]
    exact hmem
  · intro h q hq
    obtain ⟨k, hk, hq⟩ := List.mem_iff_getElem.mp hq
    rw [List.getElem_zip] at hq
    subst hq
    rw [List.length_zip] at hk
    have hkc : k < cs.length := lt_of_lt_of_le hk (min_le_left _ _)
    have hkp : k < p.length := lt_of_lt_of_le hk (min_le_right _ _)
    have := h k hkc
    rw [List.getD_eq_getElem _ _ hkc, List.getD_eq_getElem _ _ hkp] at this
    simp only [Bool.and_eq_true, decide_eq_true_eq]
    exact this

theorem filter_zip_map_fst {α β : Type} (P : α → Bool) (l1 : List α)
    (l2 : List β) (h : l1.length = l2.length) :
    ((l1.zip l2).filter fun q => P q.1).map Prod.fst = l1.filter P := by
  induction l1 generalizing l2 with
  | nil => simp
  | cons x t ih =>
    cases l2 with
    | nil => simp at h
    | cons y u =>
      have h' : t.length = u.length := by simpa using h
      rw [List.zip_cons_cons, List.filter_cons, List.filter_cons]
      cases hP : P x <;> simp [hP, ih u h']

/-- C9: in the interpolation path, sample points outside the field's
per-axis coordinate bounding box are discarded before evaluation: the call
fails with the fatal no-valid-sample-points error exactly when every sample
point lies outside the box, and otherwise succeeds with precisely the
in-box sample points (each inside the box, radii kept in step). -/
theorem claim_C9_out_of_box_discarded :
    ∀ (cs : List (List ℚ)) (pts : List (List ℚ)) (r_n : List ℚ),
    pts.length = r_n.length →
    (∀ p ∈ pts, p.length = cs.length) →
    (sampleCoordsInterpolate cs pts r_n = .error noValidSamplesMsg
        ↔ ∀ p ∈ pts, ¬ InBoxP cs p)
      ∧ ∀ pr, sampleCoordsInterpolate cs pts r_n = .ok pr →
          pr.1 = pts.filter (fun p => inBox cs p)
          ∧ pr.1.length = pr.2.length
          ∧ ∀ p ∈ pr.1, InBoxP cs p := by
  intro cs pts r_n hlen hax
  have hfilter : ((pts.zip r_n).filter fun q => inBox cs q.1).map Prod.fst
      = pts.filter fun p => inBox cs p := filter_zip_map_fst _ _ _ hlen
  constructor
  · constructor
    · intro herr p hp hbox
      unfold sampleCoordsInterpolate at herr
      by_cases hk : ((pts.zip r_n).filter fun q => inBox cs q.1).isEmpty
      · rw [List.isEmpty_iff] at hk
        have hpf : p ∈ pts.filter fun p => inBox cs p := by
          rw [List.mem_filter]
          exact ⟨hp, (inBox_iff_InBoxP cs p (hax p hp)).mpr hbox⟩
        rw [← hfilter, hk] at hpf
        simp at hpf
      · simp only [hk, Bool.false_eq_true, if_false] at herr
        exact absurd herr (by simp)
    · intro hall
      have hk : ((pts.zip r_n).filter fun q => inBox cs q.1) = [] := by
        rw [List.filter_eq_nil_iff]
        intro q hq
        have hq1 : q.1 ∈ pts := (List.of_mem_zip hq).1
        simp only [Bool.not_eq_true]
        rw [Bool.eq_false_iff]
        intro hbox
        exact hall q.1 hq1 ((inBox_iff_InBoxP cs q.1 (hax q.1 hq1)).mp hbox)
      unfold sampleCoordsInterpolate
      simp [hk]
  · intro pr hok
    unfold sampleCoordsInterpolate at hok
    by_cases hk : ((pts.zip r_n).filter fun q => inBox cs q.1).isEmpty
    · simp only [hk, if_true] at hok
      exact absurd hok (by simp)
    · simp only [hk, Bool.false_eq_true, if_false, Except.ok.injEq] at hok
      subst hok
      refine ⟨hfilter, by simp, ?_⟩
      intro p hp
      rw [hfilter, List.mem_filter] at hp
      exact (inBox_iff_InBoxP cs p (hax p hp.1)).mp hp.2

/-- Witness for C9 at a concrete input: one axis `[0, 2]` and one sample
point `[1]` at radius `5`; the point is inside the box, so the call
succeeds and the error-iff-all-outside equivalence holds. -/
theorem claim_C9_witness :
    (([[1]] : List (List ℚ)).length = ([5] : List ℚ).length
      ∧ (∀ p ∈ ([[1]] : List (List ℚ)), p.length = ([[0, 2]] : List (List ℚ)).length))
    ∧ (sampleCoordsInterpolate [[0, 2]] [[1]] [5] = .error noValidSamplesMsg
        ↔ ∀ p ∈ ([[1]] : List (List ℚ)), ¬ InBoxP [[0, 2]] p)
    ∧ ∀ pr, sampleCoordsInterpolate [[0, 2]] [[1]] [5] = .ok pr →
        pr.1 = ([[1]] : List (List ℚ)).filter (fun p => inBox [[0, 2]] p)
        ∧ pr.1.length = pr.2.length
        ∧ ∀ p ∈ pr.1, InBoxP [[0, 2]] p :=
  ⟨⟨by decide, by decide⟩,
   (claim_C9_out_of_box_discarded [[0, 2]] [[1]] [5] (by decide) (by decide)).1,
   (claim_C9_out_of_box_discarded [[0, 2]] [[1]] [5] (by decide) (by decide)).2⟩

theorem cumprodAux_mul (a b : ℝ) (l : List ℝ) :
    cumprodAux (a * b) l = (cumprodAux b l).map fun x => a * x := by
  induction l generalizing b with
  | nil => simp [cumprodAux]
  | cons x xs ih =>
    simp only [cumprodAux, List.map_cons]
    rw [show a * b * x = a * (b * x) by ring, ih (b * x)]

theorem sph2cartGeneral_cons (r a : ℝ) (rest : List ℝ) :
    sph2cartGeneral r (a :: rest)
      = (Real.cos a * r) :: (sph2cartGeneral r rest).map fun x => Real.sin a * x := by
  simp only [sph2cartGeneral, rotateLeft, List.map_cons, cumprodAux,
    List.cons_append, List.zipWith_cons_cons]
  rw [List.map_zipWith]
  rw [show (1 : ℝ) * 1 * Real.sin a = Real.sin a * (1 * 1) by ring,
    cumprodAux_mul (Real.sin a) (1 * 1) (rest.map Real.sin)]
  rw [show cumprodAux (1 * 1) (rest.map Real.sin)
      = cumprodAux 1 (rest.map Real.sin) by norm_num]
  congr 1
  · ring
  · rw [show (Real.sin a * (1 * 1) :: (cumprodAux 1 (rest.map Real.sin)).map
        fun x => Real.sin a * x)
      = (((1 : ℝ) * 1 :: cumprodAux 1 (rest.map Real.sin)).map
          fun x => Real.sin a * x) by simp]
    rw [List.zipWith_map_left]
    rw [show (fun x y => (Real.sin a * x) * y * r)
        = fun x y => Real.sin a * (x * y * r) by funext s c; ring]

theorem sumSquares_map_mul (c : ℝ) (l : List ℝ) :
    sumSquares (l.map fun x => c * x) = c ^ 2 * sumSquares l := by
  induction l with
  | nil => simp [sumSquares]
  | cons x xs ih =>
    simp only [sumSquares, List.map_cons, List.sum_cons] at ih ⊢
    rw [ih]
    ring

theorem sumSquares_sph2cartGeneral (r : ℝ) (phis : List ℝ) :
    sumSquares (sph2cartGeneral r phis) = r ^ 2 := by
  induction phis with
  | nil =>
    simp [sph2cartGeneral, cumprodAux, rotateLeft, sumSquares, Real.cos_two_pi]
  | cons a rest ih =>
    rw [sph2cartGeneral_cons]
    simp only [sumSquares, List.map_cons, List.sum_cons]
    have hmap : ((((sph2cartGeneral r rest).map fun x => Real.sin a * x).map
        fun x => x ^ 2)).sum = Real.sin a ^ 2 * r ^ 2 := by
      have := sumSquares_map_mul (Real.sin a) (sph2cartGeneral r rest)
      simp only [sumSquares] at this ih
      rw [this, ih]
    rw [hmap]
    linear_combination r ^ 2 * Real.sin_sq_add_cos_sq a

/-- C10: every Cartesian point produced by `_spherical2cartesian` from a
radius `r ≥ 0` and any tuple of angles has squared coordinates summing to
`r ^ 2` — in the closed forms for one and two angles and in the
cumulative-product-of-sines construction — so its Euclidean norm is
exactly `r`. -/
theorem claim_C10_on_sphere :
    ∀ (r : ℝ) (phis : List ℝ), 0 ≤ r →
    sumSquares (spherical2cartesian r phis) = r ^ 2
    ∧ Real.sqrt (sumSquares (spherical2cartesian r phis)) = r := by
  intro r phis hr
  have hsq : sumSquares (spherical2cartesian r phis) = r ^ 2 := by
    match phis with
    | [] => exact sumSquares_sph2cartGeneral r []
    | [p0] =>
      simp only [spherical2cartesian, sumSquares, List.map_cons,
        List.map_nil, List.sum_cons, List.sum_nil]
      linear_combination r ^ 2 * Real.sin_sq_add_cos_sq p0
    | [p0, p1] =>
      simp only [spherical2cartesian, sumSquares, List.map_cons,
        List.map_nil, List.sum_cons, List.sum_nil]
      linear_combination (r ^ 2 * Real.sin p0 ^ 2) * Real.sin_sq_add_cos_sq p1
        + r ^ 2 * Real.sin_sq_add_cos_sq p0
    | p0 :: p1 :: p2 :: rest => exact sumSquares_sph2cartGeneral r _
  exact ⟨hsq, by rw [hsq, Real.sqrt_sq hr]⟩

/-- Witness for C10 at a concrete input: radius `2` with three angles (the
general cumulative-product branch) gives a point of squared norm `4` and
norm `2`. -/
theorem claim_C10_witness :
    (0 : ℝ) ≤ 2
    ∧ sumSquares (spherical2cartesian 2 [0, 0, 0]) = 2 ^ 2
    ∧ Real.sqrt (sumSquares (spherical2cartesian 2 [0, 0, 0])) = 2 :=
  ⟨zero_le_two, (claim_C10_on_sphere 2 [0, 0, 0] zero_le_two).1,
   (claim_C10_on_sphere 2 [0, 0, 0] zero_le_two).2⟩

end Powerbox
